import Mathlib

/-!
Shallow embedding of the FROST-Ed25519 repository core
(`pkg/frost/party`, `pkg/rounds`, `pkg/state`, `pkg/frost/keygen/round2.go`,
`pkg/frost/sign/round1.go`).

Modelling choices:
* Scalars of edwards25519 live in the prime field `ZMod l` where `l` is the
  order of the prime-order subgroup.
* Points of the prime-order subgroup form a cyclic group of order `l`; we
  represent a point by its discrete logarithm with respect to the base point
  `B`, i.e. `Point := ZMod l`, `ScalarBaseMult s = s`, point addition is
  field addition and `ScalarMult s P = s * P`.  This is a faithful model of
  the subgroup as an abstract group.
* Byte strings are `List ℕ` (each entry is one byte).
* The external hash SHA-512 and the compressed point encoding are
  parameters (`hash : List ℕ → List ℕ`, `pb : Point → List ℕ`) of the
  signing-round definitions: the code treats them as black boxes.
* Go maps are modelled as functions together with an explicit iteration
  order list, because Go map iteration order is unspecified.
-/

namespace Frost

/-- Order of the prime-order subgroup of edwards25519
(`l = 2^252 + 27742317777372353535851937790883648493`). -/
def l : ℕ := 2 ^ 252 + 27742317777372353535851937790883648493

/-- Scalars: the field `ZMod l`. -/
abbrev Scalar : Type := ZMod l

/-- Points of the prime-order subgroup, in discrete-log representation. -/
abbrev Point : Type := ZMod l

theorem l_pos : 0 < l := by norm_num [l]

/-- Little-endian value of a byte string (`binary.LittleEndian` convention:
the first byte is least significant). -/
def leValue : List ℕ → ℕ
  | [] => 0
  | b :: rest => b + 256 * leValue rest

/-- `edwards25519.Scalar.SetUniformBytes`: interpret a 64-byte uniform string
as a little-endian integer and reduce it modulo `l` (library contract). -/
def setUniformBytes (bs : List ℕ) : Scalar := (leValue bs : ZMod l)

/-- `edwards25519.Scalar.SetCanonicalBytes`: succeeds exactly on a 32-byte
little-endian encoding of a value `< l` (library contract). -/
def setCanonicalBytes (bs : List ℕ) : Option Scalar :=
  if bs.length = 32 ∧ leValue bs < l then some ((leValue bs : ZMod l)) else none

namespace party

/-- `party.ByteSize = 2` from `pkg/frost/party` (part_001). -/
def ByteSize : ℕ := 2

/-- `party.MAX = (1 << (ByteSize * 8)) - 1 = 2^16 - 1`. -/
def MAX : ℕ := (1 <<< (ByteSize * 8)) - 1

/-- The 32-byte buffer built by `ID.setScalar`: 32 zero bytes with the ID
written into the first two by `binary.LittleEndian.PutUint16`. -/
def idBytes32 (p : ℕ) : List ℕ :=
  p % 256 :: p / 256 % 256 :: List.replicate 30 0

/-- `ID.setScalar` (part_001 lines 28-38): build the 32-byte little-endian
buffer and call `SetCanonicalBytes`; the Go code panics when that returns an
error, so the embedding returns `none` exactly on the panic branch. -/
def setScalar (p : ℕ) : Option Scalar := setCanonicalBytes (idBytes32 p)

/-- The mathematical value injected by `ID.Scalar()`: the ID as an element
of the scalar field. -/
def scalarOfID (p : ℕ) : Scalar := (p : ZMod l)

theorem leValue_replicate_zero (n : ℕ) : leValue (List.replicate n 0) = 0 := by
  induction n with
  | zero => rfl
  | succ k ih => simp [List.replicate, leValue, ih]

theorem leValue_idBytes32 (p : ℕ) (hp : p < 2 ^ 16) : leValue (idBytes32 p) = p := by
  have h256 : p / 256 < 256 := by omega
  simp only [idBytes32, leValue, leValue_replicate_zero]
  rw [Nat.mod_eq_of_lt h256]
  omega

theorem idBytes32_length (p : ℕ) : (idBytes32 p).length = 32 := by
  simp [idBytes32]

end party

end Frost

namespace Frost

/-- Claim C10: for every party ID value (a 16-bit unsigned integer), the
32-byte little-endian zero-padded encoding used by `ID.Scalar()` is a
canonical scalar (strictly below the group order `l`), so
`SetCanonicalBytes` always succeeds — the panic branch inside `setScalar`
is unreachable and `ID.Scalar()` is total, returning the ID as a field
element. -/
theorem id_scalar_total (p : ℕ) (hp : p < 2 ^ 16) :
    party.setScalar p = some (party.scalarOfID p) := by
  have hval := party.leValue_idBytes32 p hp
  have hlt : leValue (party.idBytes32 p) < l := by
    rw [hval]
    have : (2 : ℕ) ^ 16 < l := by norm_num [l]
    omega
  rw [party.setScalar, setCanonicalBytes, if_pos ⟨party.idBytes32_length p, hlt⟩, hval]
  rfl

/-- Witness for C10: the largest ID, `p = 65535 = party.MAX`, has a
canonical encoding and `setScalar` succeeds on it. -/
theorem id_scalar_total_witness :
    65535 < 2 ^ 16 ∧ party.setScalar 65535 = some (party.scalarOfID 65535) :=
  ⟨by norm_num, id_scalar_total 65535 (by norm_num)⟩

end Frost

namespace Frost

namespace Exponent

/-- Modelled from the spec: `evalExp(commitment, x)`, Horner's rule on the
exponent polynomial (`pkg/eddsa` polynomial code is not under `src/`;
spec §4.C: evaluation at `x` yields `Σ [xʲ]Aⱼ`). -/
def evaluate (coeffs : List Point) (x : Scalar) : Point :=
  coeffs.foldr (fun a acc => acc * x + a) 0

/-- Modelled from the spec: the constant term `A₀` of a commitment
polynomial (`CSum[0]`; `Exponent.Constant` is not under `src/`). -/
def Constant (coeffs : List Point) : Point := coeffs.headD 0

/-- Coefficient-wise sum of two commitment polynomials of equal degree. -/
def addExp (a b : List Point) : List Point := List.zipWith (· + ·) a b

/-- Modelled from the spec: `sumExp(list)`, the coefficient-wise sum of a
list of commitment polynomials (spec §4.C; not under `src/`). -/
def sumExp : List (List Point) → List Point
  | [] => []
  | [p] => p
  | p :: rest => addExp p (sumExp rest)

end Exponent

namespace keygen

/-- A `KeyGen2` wire message: sender and the Shamir share it sent us. -/
structure KeyGen2Msg where
  From : ℕ
  Share : Scalar

/-- A `state.Error`: the blamed culprit's ID and the error text. -/
structure PartyErr where
  culprit : ℕ
  text : String

/-- State of `keygen.round2` (fields of the embedded rounds used by
`round2.go`): commitment polynomial received from each party, their
coefficient-wise sum, the accumulated secret, our ID, the party set and the
threshold. -/
structure KGRound2 where
  selfID : ℕ
  allParties : List ℕ
  threshold : ℕ
  Commitments : ℕ → List Point
  CommitmentsSum : List Point
  Secret : Scalar

/-- `round2.ProcessMessage` (`pkg/frost/keygen/round2.go:13-29`):
`computedShareExp := [share]B`; compare with
`Commitments[from].Evaluate(selfID.Scalar())`; on mismatch return an error
naming the sender and leave the state and message untouched; on match add
the share to the secret and zero the share inside the message.  In the
discrete-log point model `[share]B` is `share` itself.  Returns
(error?, new state, the message after the call). -/
def ProcessMessage (st : KGRound2) (msg : KeyGen2Msg) :
    Option PartyErr × KGRound2 × KeyGen2Msg :=
  let computedShareExp : Point := msg.Share
  let shareExp := Exponent.evaluate (st.Commitments msg.From) (party.scalarOfID st.selfID)
  if computedShareExp = shareExp then
    (none, { st with Secret := st.Secret + msg.Share }, { msg with Share := 0 })
  else
    (some ⟨msg.From, "VSS failed to validate"⟩, st, msg)

/-- The emitted `eddsa.PublicKey` aggregate: per-party public shares, group
key and threshold (spec: `PublicKey{shares, Y, t}`; `eddsa.NewPublic` is
not under `src/`). -/
structure PublicOut where
  shares : List (ℕ × Point)
  groupKey : Point
  threshold : ℕ

/-- The emitted `eddsa.SecretShare` (spec: `SecretShare{selfID, secret}`;
`eddsa.NewSecretShare` is not under `src/`). -/
structure SecretShareOut where
  ID : ℕ
  Secret : Scalar

/-- The round's output record (`round.Output`). -/
structure KGOutput where
  Public : PublicOut
  SecretKey : SecretShareOut

/-- `round2.GenerateMessages` (`pkg/frost/keygen/round2.go:31-39`): build
`shares[id] = CommitmentsSum.Evaluate(id.Scalar())` over the party set,
emit `NewPublic(shares, threshold, CommitmentsSum.Constant())` and
`NewSecretShare(selfID, Secret)`, and return no outgoing messages. -/
def GenerateMessages (st : KGRound2) : KGOutput × List KeyGen2Msg :=
  let shares := st.allParties.map
    (fun id => (id, Exponent.evaluate st.CommitmentsSum (party.scalarOfID id)))
  ({ Public := { shares := shares
               , groupKey := Exponent.Constant st.CommitmentsSum
               , threshold := st.threshold }
   , SecretKey := { ID := st.selfID, Secret := st.Secret } }, [])

theorem lookup_map_self {α : Type} (f : ℕ → α) (xs : List ℕ) (i : ℕ) (hi : i ∈ xs) :
    (xs.map (fun id => (id, f id))).lookup i = some (f i) := by
  induction xs with
  | nil => cases hi
  | cons x rest ih =>
    by_cases hx : i = x
    · subst hx; simp [List.lookup]
    · have hb : (i == x) = false := by simpa using hx
      rw [List.mem_cons] at hi
      rcases hi with h | h
      · exact absurd h hx
      · simp [List.lookup, hb, ih h]

end keygen

end Frost

namespace Frost

/-- Claim C2: KeyGen round 2 `ProcessMessage` accepts the share `s` sent by
peer `j` iff `[s]B` equals the evaluation of `j`'s commitment polynomial at
the local party's ID scalar; on success it adds `s` to the accumulated
secret and overwrites the received share with zero; on failure it returns
an error naming `j` as culprit and leaves the accumulated secret (indeed
the whole state and the message) unchanged. -/
theorem keygen_round2_process_message (st : keygen.KGRound2) (msg : keygen.KeyGen2Msg) :
    ((keygen.ProcessMessage st msg).1 = none ↔
      (msg.Share : Point) =
        Exponent.evaluate (st.Commitments msg.From) (party.scalarOfID st.selfID))
    ∧ ((keygen.ProcessMessage st msg).1 = none →
        (keygen.ProcessMessage st msg).2.1 = { st with Secret := st.Secret + msg.Share }
        ∧ (keygen.ProcessMessage st msg).2.2.Share = 0)
    ∧ ((keygen.ProcessMessage st msg).1 ≠ none →
        (keygen.ProcessMessage st msg).1 = some ⟨msg.From, "VSS failed to validate"⟩
        ∧ (keygen.ProcessMessage st msg).2.1 = st
        ∧ (keygen.ProcessMessage st msg).2.2 = msg) := by
  by_cases h : (msg.Share : Point) =
      Exponent.evaluate (st.Commitments msg.From) (party.scalarOfID st.selfID)
  · refine ⟨by simp [keygen.ProcessMessage, h], ?_, ?_⟩
    · intro _; constructor
      · simp [keygen.ProcessMessage, h]
      · simp [keygen.ProcessMessage, h]
    · intro hne; exact absurd (by simp [keygen.ProcessMessage, h]) hne
  · refine ⟨by simp [keygen.ProcessMessage, h], ?_, ?_⟩
    · intro hno; exact absurd hno (by simp [keygen.ProcessMessage, h])
    · intro _
      refine ⟨by simp [keygen.ProcessMessage, h], by simp [keygen.ProcessMessage, h],
        by simp [keygen.ProcessMessage, h]⟩

/-- Concrete KeyGen round-2 state used by the witnesses: two parties, both
commitment polynomials `[3, 4]`, so their coefficient-wise sum is `[6, 8]`. -/
def kgStW : keygen.KGRound2 :=
  { selfID := 1, allParties := [1, 2], threshold := 1
  , Commitments := fun _ => [3, 4], CommitmentsSum := [6, 8], Secret := 0 }

/-- Concrete KeyGen2 message: party 2 sends the share `7`, and
`evalExp([3,4], scalar(1)) = 3 + 4·1 = 7`, so the VSS check passes. -/
def kgMsgW : keygen.KeyGen2Msg := { From := 2, Share := 7 }

/-- Witness for C2: `ProcessMessage` evaluated at the concrete state and
message above. -/
theorem keygen_round2_process_message_witness :
    ((keygen.ProcessMessage kgStW kgMsgW).1 = none ↔
      (kgMsgW.Share : Point) =
        Exponent.evaluate (kgStW.Commitments kgMsgW.From) (party.scalarOfID kgStW.selfID))
    ∧ ((keygen.ProcessMessage kgStW kgMsgW).1 = none →
        (keygen.ProcessMessage kgStW kgMsgW).2.1
            = { kgStW with Secret := kgStW.Secret + kgMsgW.Share }
        ∧ (keygen.ProcessMessage kgStW kgMsgW).2.2.Share = 0)
    ∧ ((keygen.ProcessMessage kgStW kgMsgW).1 ≠ none →
        (keygen.ProcessMessage kgStW kgMsgW).1
            = some ⟨kgMsgW.From, "VSS failed to validate"⟩
        ∧ (keygen.ProcessMessage kgStW kgMsgW).2.1 = kgStW
        ∧ (keygen.ProcessMessage kgStW kgMsgW).2.2 = kgMsgW) :=
  keygen_round2_process_message kgStW kgMsgW

/-- Claim C3: at KeyGen round 2 output, the emitted public aggregate has
group key equal to the constant term of the coefficient-wise sum of all
commitment polynomials, each party's public share equals the
exponent-polynomial evaluation of that sum at the party's ID scalar, the
threshold is carried over, the secret output is
`SecretShare{selfID, accumulated secret}`, and no outgoing messages are
produced. -/
theorem keygen_round2_output (st : keygen.KGRound2)
    (h : st.CommitmentsSum = Exponent.sumExp (st.allParties.map st.Commitments)) :
    (keygen.GenerateMessages st).1.Public.groupKey
        = Exponent.Constant (Exponent.sumExp (st.allParties.map st.Commitments))
    ∧ (∀ i ∈ st.allParties,
        (keygen.GenerateMessages st).1.Public.shares.lookup i
          = some (Exponent.evaluate (Exponent.sumExp (st.allParties.map st.Commitments))
              (party.scalarOfID i)))
    ∧ (keygen.GenerateMessages st).1.Public.threshold = st.threshold
    ∧ (keygen.GenerateMessages st).1.SecretKey = ⟨st.selfID, st.Secret⟩
    ∧ (keygen.GenerateMessages st).2 = [] := by
  refine ⟨by simp [keygen.GenerateMessages, h], ?_, rfl, rfl, rfl⟩
  intro i hi
  simpa [keygen.GenerateMessages, h] using
    keygen.lookup_map_self
      (fun id => Exponent.evaluate (Exponent.sumExp (st.allParties.map st.Commitments))
        (party.scalarOfID id)) st.allParties i hi

/-- Witness for C3: the round-2 output evaluated at the concrete state
`kgStW`, whose `CommitmentsSum` field really is the coefficient-wise sum of
the stored commitment polynomials. -/
theorem keygen_round2_output_witness :
    (keygen.GenerateMessages kgStW).1.Public.groupKey
        = Exponent.Constant (Exponent.sumExp (kgStW.allParties.map kgStW.Commitments))
    ∧ (∀ i ∈ kgStW.allParties,
        (keygen.GenerateMessages kgStW).1.Public.shares.lookup i
          = some (Exponent.evaluate
              (Exponent.sumExp (kgStW.allParties.map kgStW.Commitments))
              (party.scalarOfID i)))
    ∧ (keygen.GenerateMessages kgStW).1.Public.threshold = kgStW.threshold
    ∧ (keygen.GenerateMessages kgStW).1.SecretKey = ⟨kgStW.selfID, kgStW.Secret⟩
    ∧ (keygen.GenerateMessages kgStW).2 = [] :=
  keygen_round2_output kgStW (by decide)

end Frost

namespace Frost

namespace rounds

/- The `RoundState` constants of `pkg/rounds/base.go` (`1 << iota` over a
`uint8`). -/

namespace RoundState

def ProcessMessages : ℕ := 1

def ProcessRound : ℕ := 2

def GenerateMessages : ℕ := 4

def NextRound : ℕ := 8

def Finished : ℕ := 16

def Abort : ℕ := 32

end RoundState

/-- State of a `BaseRound` (`pkg/rounds/base.go`).  The `done` channel is
modelled by the flag `doneClosed`; `messages.Queue` (not under `src/`) is
modelled by the single observation the base round makes of it,
`receivedAll`. -/
structure BaseRound where
  state : ℕ
  isProcessingStep : Bool
  finalError : Option String
  doneClosed : Bool
  receivedAll : Bool
  roundNumber : ℕ

/-- The error string produced by `fmt.Errorf("abort: party %d: %w", c, e)`. -/
def fmtAbort (culprit : ℕ) (err : String) : String :=
  "abort: party " ++ toString culprit ++ ": " ++ err

/-- `BaseRound.Abort` (base.go:105-115): set the state to `Abort`
unconditionally; on the first error record it and close `done`; afterwards
append (`fmt.Errorf("%v, abort: party %d: %w", prev, c, e)`) without
overwriting. -/
def Abort (b : BaseRound) (culprit : ℕ) (err : String) : BaseRound :=
  { b with
    state := RoundState.Abort
    finalError := some (match b.finalError with
      | none => fmtAbort culprit err
      | some prev => prev ++ ", " ++ fmtAbort culprit err)
    doneClosed := b.doneClosed || b.finalError.isNone }

/-- `BaseRound.Finish` (base.go:119-125): no-op when the state is `Abort`
or already `Finished`; otherwise move to `Finished` and close `done`. -/
def Finish (b : BaseRound) : BaseRound :=
  if b.state = RoundState.Abort ∨ b.state = RoundState.Finished then b
  else { b with state := RoundState.Finished, doneClosed := true }

/-- `BaseRound.WaitForFinish` (base.go:129-132) blocks on `done` and then
returns `finalError`; only the returned value is modelled. -/
def WaitForFinish (b : BaseRound) : Option String := b.finalError

/-- `BaseRound.CanProcessMessages` (base.go:141-155): refuse while a step
is being processed; otherwise reserve the step iff the state is
`ProcessMessages` and the queue has all messages. -/
def CanProcessMessages (b : BaseRound) : Bool × BaseRound :=
  if b.isProcessingStep then (false, b)
  else if b.state = RoundState.ProcessMessages ∧ b.receivedAll then
    (true, { b with isProcessingStep := true })
  else (false, b)

/-- `BaseRound.CanProcessRound` (base.go:157-171). -/
def CanProcessRound (b : BaseRound) : Bool × BaseRound :=
  if b.isProcessingStep then (false, b)
  else if b.state = RoundState.ProcessRound then
    (true, { b with isProcessingStep := true })
  else (false, b)

/-- `BaseRound.CanGenerateMessages` (base.go:173-187). -/
def CanGenerateMessages (b : BaseRound) : Bool × BaseRound :=
  if b.isProcessingStep then (false, b)
  else if b.state = RoundState.GenerateMessages then
    (true, { b with isProcessingStep := true })
  else (false, b)

/-- `BaseRound.NextStep` (base.go:190-200): advance by a left shift of the
`uint8` state, but only from one of the three active states; in the
`ProcessMessages` case the queue also advances (`messages.NextRound()`),
which resets the `receivedAll` observation for the fresh round. -/
def NextStep (b : BaseRound) : BaseRound :=
  if b.state = RoundState.ProcessMessages then
    { b with isProcessingStep := false, state := b.state * 2 % 256, receivedAll := false }
  else if b.state = RoundState.ProcessRound ∨ b.state = RoundState.GenerateMessages then
    { b with isProcessingStep := false, state := b.state * 2 % 256 }
  else b

/-- `BaseRound.PrepareNextRound` (base.go:93-102). -/
def PrepareNextRound (b : BaseRound) : Bool × BaseRound :=
  if b.state = RoundState.NextRound then
    (true, { b with state := RoundState.ProcessMessages, roundNumber := b.roundNumber + 1 })
  else (false, b)

/-- Any public entry point of the state machine, plus `store` for queue
activity that may change the `receivedAll` observation. -/
inductive Op : Type where
  | canProcessMessages : Op
  | canProcessRound : Op
  | canGenerateMessages : Op
  | nextStep : Op
  | finishOp : Op
  | prepareNextRound : Op
  | abortOp : ℕ → String → Op
  | store : Bool → Op

/-- Effect of one entry point on the state (returned booleans dropped). -/
def step (b : BaseRound) : Op → BaseRound
  | .canProcessMessages => (CanProcessMessages b).2
  | .canProcessRound => (CanProcessRound b).2
  | .canGenerateMessages => (CanGenerateMessages b).2
  | .nextStep => NextStep b
  | .finishOp => Finish b
  | .prepareNextRound => (PrepareNextRound b).2
  | .abortOp c e => Abort b c e
  | .store v => { b with receivedAll := v }

/-- Run a sequence of entry points. -/
def run (b : BaseRound) (ops : List Op) : BaseRound := ops.foldl step b

theorem step_preserves_abort (b : BaseRound) (op : Op)
    (h : b.state = RoundState.Abort) : (step b op).state = RoundState.Abort := by
  cases op with
  | canProcessMessages =>
      simp only [step, CanProcessMessages]
      split_ifs with h1 h2
      · exact h
      · simp_all [RoundState.Abort, RoundState.ProcessMessages]
      · exact h
  | canProcessRound =>
      simp only [step, CanProcessRound]
      split_ifs with h1 h2
      · exact h
      · simp_all [RoundState.Abort, RoundState.ProcessRound]
      · exact h
  | canGenerateMessages =>
      simp only [step, CanGenerateMessages]
      split_ifs with h1 h2
      · exact h
      · simp_all [RoundState.Abort, RoundState.GenerateMessages]
      · exact h
  | nextStep =>
      simp only [step, NextStep]
      split_ifs with h1 h2
      · simp_all [RoundState.Abort, RoundState.ProcessMessages]
      · rcases h2 with h2 | h2 <;>
          simp_all [RoundState.Abort, RoundState.ProcessRound, RoundState.GenerateMessages]
      · exact h
  | finishOp =>
      simp only [step, Finish]
      split_ifs with h1
      · exact h
      · exact absurd (Or.inl h) h1
  | prepareNextRound =>
      simp only [step, PrepareNextRound]
      split_ifs with h1
      · simp_all [RoundState.Abort, RoundState.NextRound]
      · exact h
  | abortOp c e => simp [step, Abort]
  | store v => simpa [step] using h

theorem run_preserves_abort (ops : List Op) (b : BaseRound)
    (h : b.state = RoundState.Abort) : (run b ops).state = RoundState.Abort := by
  induction ops generalizing b with
  | nil => exact h
  | cons op rest ih => exact ih (step b op) (step_preserves_abort b op h)

theorem string_append_assoc (a b c : String) : a ++ b ++ c = a ++ (b ++ c) := by
  apply String.ext
  simp [String.data_append]

theorem step_error_extends (s : String) (b : BaseRound) (op : Op)
    (h : ∃ t, b.finalError = some (s ++ t)) :
    ∃ t, (step b op).finalError = some (s ++ t) := by
  obtain ⟨t, ht⟩ := h
  cases op with
  | abortOp c e =>
      refine ⟨t ++ ", " ++ fmtAbort c e, ?_⟩
      simp only [step, Abort, ht]
      congr 1
      apply String.ext
      simp [String.data_append]
  | canProcessMessages =>
      exact ⟨t, by simp only [step, CanProcessMessages]; split_ifs <;> simp [ht]⟩
  | canProcessRound =>
      exact ⟨t, by simp only [step, CanProcessRound]; split_ifs <;> simp [ht]⟩
  | canGenerateMessages =>
      exact ⟨t, by simp only [step, CanGenerateMessages]; split_ifs <;> simp [ht]⟩
  | nextStep =>
      exact ⟨t, by simp only [step, NextStep]; split_ifs <;> simp [ht]⟩
  | finishOp =>
      exact ⟨t, by simp only [step, Finish]; split_ifs <;> simp [ht]⟩
  | prepareNextRound =>
      exact ⟨t, by simp only [step, PrepareNextRound]; split_ifs <;> simp [ht]⟩
  | store v =>
      exact ⟨t, by simp [step, ht]⟩

theorem run_error_extends (s : String) (ops : List Op) (b : BaseRound)
    (h : ∃ t, b.finalError = some (s ++ t)) :
    ∃ t, (run b ops).finalError = some (s ++ t) := by
  induction ops generalizing b with
  | nil => exact h
  | cons op rest ih => exact ih (step b op) (step_error_extends s b op h)

/-- `buildIDs` is the ID-collection loop of `NewBaseRound`
(`pkg/rounds/base.go:53-75`): reject a zero ID, record the first occurrence
of `selfPartyID`, silently drop repeated non-self IDs, and fail at the end
when `selfPartyID` never appeared.  Returns
`(finalAllPartyIDs, otherPartyIDs)`. -/
def buildIDs (selfPartyID : ℕ) :
    List ℕ → Bool → List ℕ → List ℕ → Option (List ℕ × List ℕ)
  | [], found, finalAll, others =>
      if found then some (finalAll, others) else none
  | id :: rest, found, finalAll, others =>
      if id = 0 then none
      else if id = selfPartyID ∧ found = false then
        buildIDs selfPartyID rest true (finalAll ++ [id]) others
      else if id ∈ others then buildIDs selfPartyID rest found finalAll others
      else buildIDs selfPartyID rest found (finalAll ++ [id]) (others ++ [id])

/-- `NewBaseRound` (`pkg/rounds/base.go:46-89`): reject `selfPartyID = 0`,
then run the collection loop.  `messages.NewMessageQueue` is not under
`src/` and the spec assigns its construction no failure condition, so it is
modelled as always succeeding. -/
def NewBaseRound (selfPartyID : ℕ) (allPartyIDs : List ℕ) :
    Option (List ℕ × List ℕ) :=
  if selfPartyID = 0 then none
  else buildIDs selfPartyID allPartyIDs false [] []

theorem buildIDs_isSome (selfPartyID : ℕ) (xs : List ℕ) :
    ∀ (found : Bool) (finalAll others : List ℕ),
      (buildIDs selfPartyID xs found finalAll others).isSome = true ↔
        ((∀ id ∈ xs, id ≠ 0) ∧ (found = true ∨ selfPartyID ∈ xs)) := by
  induction xs with
  | nil =>
      intro found finalAll others
      cases found <;> simp [buildIDs]
  | cons id rest ih =>
      intro found finalAll others
      by_cases h0 : id = 0
      · simp [buildIDs, h0]
      · by_cases hs : id = selfPartyID ∧ found = false
        · rw [buildIDs, if_neg h0, if_pos hs]
          rw [ih true (finalAll ++ [id]) others]
          obtain ⟨hid, hf⟩ := hs
          subst hid
          simp [h0, List.mem_cons]
        · rw [buildIDs, if_neg h0, if_neg hs]
          have key : ∀ fa ot,
              (buildIDs selfPartyID rest found fa ot).isSome = true ↔
                ((∀ i ∈ rest, i ≠ 0) ∧ (found = true ∨ selfPartyID ∈ rest)) := ih found
          have hmem : (found = true ∨ selfPartyID ∈ id :: rest) ↔
              (found = true ∨ selfPartyID ∈ rest) := by
            rcases not_and_or.mp hs with h | h
            · constructor
              · rintro (hf | hm)
                · exact Or.inl hf
                · rw [List.mem_cons] at hm
                  rcases hm with hm | hm
                  · exact absurd hm.symm h
                  · exact Or.inr hm
              · rintro (hf | hm)
                · exact Or.inl hf
                · exact Or.inr (List.mem_cons_of_mem _ hm)
            · have hf : found = true := by
                cases found
                · exact absurd rfl h
                · rfl
              simp [hf]
          split_ifs with hmem2
          · rw [key finalAll others, ← hmem]
            simp [h0]
          · rw [key (finalAll ++ [id]) (others ++ [id]), ← hmem]
            simp [h0]

end rounds

end Frost

namespace Frost

/-- Claim C5: Abort is sticky.  After `Abort` has been called, no matter
which sequence of entry points runs afterwards, the state is still `Abort`,
all three `Can*` predicates return `false`, `NextStep` leaves the state at
`Abort`, and `Finish` does not move the state to `Finished`. -/
theorem abort_is_sticky (b : rounds.BaseRound) (culprit : ℕ) (err : String)
    (ops : List rounds.Op) :
    (rounds.run (rounds.Abort b culprit err) ops).state = rounds.RoundState.Abort
    ∧ (rounds.CanProcessMessages (rounds.run (rounds.Abort b culprit err) ops)).1 = false
    ∧ (rounds.CanProcessRound (rounds.run (rounds.Abort b culprit err) ops)).1 = false
    ∧ (rounds.CanGenerateMessages (rounds.run (rounds.Abort b culprit err) ops)).1 = false
    ∧ (rounds.NextStep (rounds.run (rounds.Abort b culprit err) ops)).state
        = rounds.RoundState.Abort
    ∧ (rounds.Finish (rounds.run (rounds.Abort b culprit err) ops)).state
        = rounds.RoundState.Abort := by
  have habort : (rounds.Abort b culprit err).state = rounds.RoundState.Abort := rfl
  have hrun := rounds.run_preserves_abort ops (rounds.Abort b culprit err) habort
  refine ⟨hrun, ?_, ?_, ?_, ?_, ?_⟩
  · simp only [rounds.CanProcessMessages]
    split_ifs with h1 h2
    · rfl
    · exact absurd h2.1 (by rw [hrun]; decide)
    · rfl
  · simp only [rounds.CanProcessRound]
    split_ifs with h1 h2
    · rfl
    · exact absurd h2 (by rw [hrun]; decide)
    · rfl
  · simp only [rounds.CanGenerateMessages]
    split_ifs with h1 h2
    · rfl
    · exact absurd h2 (by rw [hrun]; decide)
    · rfl
  · simp only [rounds.NextStep]
    split_ifs with h1 h2
    · exact absurd h1 (by rw [hrun]; decide)
    · rcases h2 with h2 | h2 <;> exact absurd h2 (by rw [hrun]; decide)
    · exact hrun
  · simp only [rounds.Finish]
    split_ifs with h1
    · exact hrun
    · exact absurd (Or.inl hrun) h1

/-- Claim C6: the first `Abort(culprit, err)` on an error-free round
records `abort: party culprit: err`; any later entry-point calls (further
aborts included) only ever append to that record, so the error kept by the
state — and returned by `WaitForFinish` — still starts with the first
culprit's entry; and a round that finishes without any abort returns `nil`
from `WaitForFinish`. -/
theorem abort_first_error (b : rounds.BaseRound) (culprit : ℕ) (err : String)
    (ops : List rounds.Op) (h : b.finalError = none) :
    (rounds.Abort b culprit err).finalError = some (rounds.fmtAbort culprit err)
    ∧ (∃ t, (rounds.run (rounds.Abort b culprit err) ops).finalError
        = some (rounds.fmtAbort culprit err ++ t))
    ∧ rounds.WaitForFinish (rounds.run (rounds.Abort b culprit err) ops)
        = (rounds.run (rounds.Abort b culprit err) ops).finalError
    ∧ rounds.WaitForFinish (rounds.Finish b) = none := by
  have hfirst : (rounds.Abort b culprit err).finalError
      = some (rounds.fmtAbort culprit err) := by
    simp [rounds.Abort, h]
  refine ⟨hfirst, ?_, rfl, ?_⟩
  · refine rounds.run_error_extends _ ops _ ⟨"", ?_⟩
    rw [hfirst]
    congr 1
    apply String.ext
    simp [String.data_append]
  · simp only [rounds.WaitForFinish, rounds.Finish]
    split_ifs <;> simp [h]

/-- Concrete base-round state for the C6 witness: a fresh round as produced
by `NewBaseRound` (initial state `ProcessRound`, no error). -/
def baseW : rounds.BaseRound :=
  { state := rounds.RoundState.ProcessRound, isProcessingStep := false
  , finalError := none, doneClosed := false, receivedAll := false, roundNumber := 0 }

/-- Witness for C6: abort naming party 7, then a second abort naming
party 2; the recorded error still starts with party 7's entry. -/
theorem abort_first_error_witness :
    (rounds.Abort baseW 7 "bad").finalError = some (rounds.fmtAbort 7 "bad")
    ∧ (∃ t, (rounds.run (rounds.Abort baseW 7 "bad") [rounds.Op.abortOp 2 "x"]).finalError
        = some (rounds.fmtAbort 7 "bad" ++ t))
    ∧ rounds.WaitForFinish (rounds.run (rounds.Abort baseW 7 "bad") [rounds.Op.abortOp 2 "x"])
        = (rounds.run (rounds.Abort baseW 7 "bad") [rounds.Op.abortOp 2 "x"]).finalError
    ∧ rounds.WaitForFinish (rounds.Finish baseW) = none :=
  abort_first_error baseW 7 "bad" [rounds.Op.abortOp 2 "x"] rfl

/-- Counterexample for C8 as stated: `NewBaseRound` succeeds on the list
`[1, 2, 2]`, which contains a duplicate, although the claim says a
duplicate ID must make construction fail. -/
theorem newBaseRound_accepts_duplicate :
    (rounds.NewBaseRound 1 [1, 2, 2]).isSome = true ∧ ¬ List.Nodup [1, 2, 2] := by
  constructor
  · rfl
  · decide

/-- Claim C8 amended: `NewBaseRound(selfPartyID, allPartyIDs)` succeeds iff
`selfPartyID ≠ 0`, no ID in the list is `0`, and `selfPartyID` appears in
the list (an empty list therefore fails); duplicate IDs are silently
deduplicated rather than rejected, and there is no size bound. -/
theorem newBaseRound_ok_iff (selfPartyID : ℕ) (allPartyIDs : List ℕ) :
    (rounds.NewBaseRound selfPartyID allPartyIDs).isSome = true ↔
      (selfPartyID ≠ 0 ∧ (∀ id ∈ allPartyIDs, id ≠ 0) ∧ selfPartyID ∈ allPartyIDs) := by
  by_cases hs : selfPartyID = 0
  · simp [rounds.NewBaseRound, hs]
  · rw [rounds.NewBaseRound, if_neg hs,
      rounds.buildIDs_isSome selfPartyID allPartyIDs false [] []]
    simp [hs]

end Frost

namespace Frost

namespace sign

/-- Per-party signing state (`round.Parties[id]` in `pkg/frost/sign`):
received nonce commitments `Di, Ei`, derived binding scalar `Pi = ρᵢ` and
nonce point `Ri`, response `Zi`, and the precomputed Lagrange
coefficient. -/
structure Signer where
  Di : Point
  Ei : Point
  Pi : Scalar
  Ri : Point
  Zi : Scalar
  Lagrange : Scalar

/-- State of `sign.round1` as used by `ProcessRound` (part_000): the sorted
ID list `AllParties`, our ID, the per-party map, the message, the group key
`Y`, our secret share and nonces `d, e`, and the derived `R`, `C`. -/
structure Round1 where
  AllParties : List ℕ
  PartySelf : ℕ
  Parties : ℕ → Signer
  Message : List ℕ
  Y : Point
  Secret : Scalar
  d : Scalar
  e : Scalar
  R : Point
  C : Scalar
  roundProcessed : Bool
  messagesProcessed : Bool

/-- `binary.BigEndian.PutUint32`: the 4-byte big-endian encoding. -/
def u32be (n : ℕ) : List ℕ :=
  [n / 2 ^ 24 % 256, n / 2 ^ 16 % 256, n / 2 ^ 8 % 256, n % 256]

/-- ASCII bytes of the domain-separation tag `FROST-SHA512`. -/
def frostTag : List ℕ := [70, 82, 79, 83, 84, 45, 83, 72, 65, 53, 49, 50]

/-- The transcript `B` (part_000 lines 51-67): concatenation over
`AllParties`, in list order, of `ID_i` as 4-byte big-endian followed by the
compressed encodings of `Dᵢ` and `Eᵢ`.  `pb` is the point-encoding of the
group library. -/
def computeB (pb : Point → List ℕ) (st : Round1) : List ℕ :=
  (st.AllParties.map (fun id =>
    u32be id ++ pb (st.Parties id).Di ++ pb (st.Parties id).Ei)).flatten

/-- The binding scalar
`ρᵢ = SetUniformBytes(SHA-512("FROST-SHA512" ‖ ID_i ‖ M ‖ B))`
(part_000 lines 73-83); `hash` is SHA-512. -/
def rho (hash : List ℕ → List ℕ) (M B : List ℕ) (id : ℕ) : Scalar :=
  setUniformBytes (hash (frostTag ++ u32be id ++ M ++ B))

/-- One iteration of the per-party loop (part_000 lines 72-91): set
`Pi := ρᵢ` and `Ri := [ρᵢ]Eᵢ + Dᵢ` for the given party. -/
def rhoStep (hash : List ℕ → List ℕ) (M B : List ℕ) (parties : ℕ → Signer)
    (id : ℕ) : Signer :=
  let p := parties id
  let Pi := rho hash M B id
  { p with Pi := Pi, Ri := Pi * p.Ei + p.Di }

/-- The whole per-party loop: Go iterates the `Parties` map in an
unspecified order, given here as the explicit list argument; `R` is the
running aggregate. -/
def rhoLoop (hash : List ℕ → List ℕ) (M B : List ℕ) :
    List ℕ → (ℕ → Signer) → Point → (ℕ → Signer) × Point
  | [], parties, R => (parties, R)
  | id :: rest, parties, R =>
      let p := rhoStep hash M B parties id
      rhoLoop hash M B rest (Function.update parties id p) (R + p.Ri)

/-- Modelled from the spec: `eddsa.ComputeChallenge` (`pkg/helpers/eddsa`
is not under `src/`); spec §4.G:
`c := SetUniformBytes(SHA-512(R_compressed ‖ Y_compressed ‖ M))`. -/
def ComputeChallenge (pb : Point → List ℕ) (hash : List ℕ → List ℕ)
    (M : List ℕ) (Y R : Point) : Scalar :=
  setUniformBytes (hash (pb R ++ pb Y ++ M))

/-- The straight-line success path of `round1.ProcessRound` (part_000
lines 49-111): build `B`, run the per-party loop accumulating `R` from the
identity, compute the challenge, compute `z` in the code's operation order
(`z = λ·s`, `z = z·c`, `z = e·ρ_self + z`, `z = z + d`), store it in the
self party's `Zi`, and mark the round processed. -/
def processRoundBody (pb : Point → List ℕ) (hash : List ℕ → List ℕ)
    (order : List ℕ) (st : Round1) : Round1 :=
  let B := computeB pb st
  let lr := rhoLoop hash st.Message B order st.Parties 0
  let c := ComputeChallenge pb hash st.Message st.Y lr.2
  let selfParty := lr.1 st.PartySelf
  let z := (st.e * selfParty.Pi + selfParty.Lagrange * st.Secret * c) + st.d
  { st with
    Parties := Function.update lr.1 st.PartySelf { selfParty with Zi := z }
    R := lr.2
    C := c
    roundProcessed := true }

/-- `round1.ProcessRound` (part_000 lines 39-114): guard on
`roundProcessed` (returning `ErrRoundProcessed`, modelled as `none`), then
the straight-line body. -/
def ProcessRound (pb : Point → List ℕ) (hash : List ℕ → List ℕ)
    (order : List ℕ) (st : Round1) : Option Round1 :=
  if st.roundProcessed then none
  else some (processRoundBody pb hash order st)

/-- `round1.CanProcess` (`pkg/frost/sign/round1.go:18-37`): refuse when the
round is done; when the count of stored `Sign1` messages is exactly `n-1`,
do check that every non-self party has one; in every other case fall
through to `return true`.  `partiesKeys` are the keys of `round.Parties`,
`msgs1Keys` those of `round.msgs1`. -/
def CanProcess (readyForNextRound : Bool) (allParties partiesKeys msgs1Keys : List ℕ)
    (partySelf : ℕ) : Bool :=
  if readyForNextRound then false
  else if (msgs1Keys.length : ℤ) = (allParties.length : ℤ) - 1 then
    partiesKeys.all (fun id => if id = partySelf then true else msgs1Keys.contains id)
  else true

theorem rhoStep_of_update_ne (hash : List ℕ → List ℕ) (M B : List ℕ)
    (parties : ℕ → Signer) (id j : ℕ) (p : Signer) (hji : j ≠ id) :
    rhoStep hash M B (Function.update parties id p) j = rhoStep hash M B parties j := by
  simp [rhoStep, Function.update_noteq hji]

theorem rhoLoop_fst_not_mem (hash : List ℕ → List ℕ) (M B : List ℕ)
    (order : List ℕ) (parties : ℕ → Signer) (R : Point) (j : ℕ) (hj : j ∉ order) :
    (rhoLoop hash M B order parties R).1 j = parties j := by
  induction order generalizing parties R with
  | nil => rfl
  | cons id rest ih =>
      have hj1 : j ≠ id := fun h => hj (h ▸ List.mem_cons_self id rest)
      have hj2 : j ∉ rest := fun h => hj (List.mem_cons_of_mem _ h)
      rw [rhoLoop, ih _ _ hj2, Function.update_noteq hj1]

theorem rhoLoop_fst_mem (hash : List ℕ → List ℕ) (M B : List ℕ)
    (order : List ℕ) (hnd : order.Nodup) (parties : ℕ → Signer) (R : Point)
    (j : ℕ) (hj : j ∈ order) :
    (rhoLoop hash M B order parties R).1 j = rhoStep hash M B parties j := by
  induction order generalizing parties R with
  | nil => cases hj
  | cons id rest ih =>
      rw [List.nodup_cons] at hnd
      by_cases hji : j = id
      · subst hji
        rw [rhoLoop, rhoLoop_fst_not_mem _ _ _ rest _ _ j hnd.1,
          Function.update_same]
      · have hjr : j ∈ rest := by
          rcases List.mem_cons.mp hj with h | h
          · exact absurd h hji
          · exact h
        rw [rhoLoop, ih hnd.2 _ _ hjr, rhoStep_of_update_ne _ _ _ _ _ _ _ hji]

theorem rhoLoop_snd (hash : List ℕ → List ℕ) (M B : List ℕ)
    (order : List ℕ) (hnd : order.Nodup) (parties : ℕ → Signer) (R : Point) :
    (rhoLoop hash M B order parties R).2
      = R + (order.map (fun id => (rhoStep hash M B parties id).Ri)).sum := by
  induction order generalizing parties R with
  | nil => simp [rhoLoop]
  | cons id rest ih =>
      rw [List.nodup_cons] at hnd
      rw [rhoLoop, ih hnd.2]
      have hmap : rest.map (fun j =>
            (rhoStep hash M B (Function.update parties id (rhoStep hash M B parties id)) j).Ri)
          = rest.map (fun j => (rhoStep hash M B parties j).Ri) := by
        apply List.map_congr_left
        intro j hjr
        have hji : j ≠ id := fun h => hnd.1 (h ▸ hjr)
        rw [rhoStep_of_update_ne _ _ _ _ _ _ _ hji]
      rw [hmap, List.map_cons, List.sum_cons, add_assoc]

theorem ProcessRound_eq_some (pb : Point → List ℕ) (hash : List ℕ → List ℕ)
    (order : List ℕ) (st : Round1) (h : st.roundProcessed = false) :
    ProcessRound pb hash order st = some (processRoundBody pb hash order st) := by
  rw [ProcessRound, if_neg (by simp [h])]

theorem processRoundBody_Parties_Pi (pb : Point → List ℕ) (hash : List ℕ → List ℕ)
    (order : List ℕ) (st : Round1) (hndo : order.Nodup) (i : ℕ) (hio : i ∈ order) :
    ((processRoundBody pb hash order st).Parties i).Pi
      = rho hash st.Message (computeB pb st) i := by
  simp only [processRoundBody]
  by_cases his : i = st.PartySelf
  · subst his
    simp only [Function.update_same]
    rw [rhoLoop_fst_mem hash st.Message (computeB pb st) order hndo st.Parties 0 _ hio]
    simp [rhoStep]
  · rw [Function.update_noteq his,
      rhoLoop_fst_mem hash st.Message (computeB pb st) order hndo st.Parties 0 i hio]
    simp [rhoStep]

theorem processRoundBody_Parties_Ri (pb : Point → List ℕ) (hash : List ℕ → List ℕ)
    (order : List ℕ) (st : Round1) (hndo : order.Nodup) (i : ℕ) (hio : i ∈ order) :
    ((processRoundBody pb hash order st).Parties i).Ri
      = rho hash st.Message (computeB pb st) i * (st.Parties i).Ei + (st.Parties i).Di := by
  simp only [processRoundBody]
  by_cases his : i = st.PartySelf
  · subst his
    simp only [Function.update_same]
    rw [rhoLoop_fst_mem hash st.Message (computeB pb st) order hndo st.Parties 0 _ hio]
    simp [rhoStep]
  · rw [Function.update_noteq his,
      rhoLoop_fst_mem hash st.Message (computeB pb st) order hndo st.Parties 0 i hio]
    simp [rhoStep]

theorem processRoundBody_R (pb : Point → List ℕ) (hash : List ℕ → List ℕ)
    (order : List ℕ) (st : Round1) (hndo : order.Nodup) :
    (processRoundBody pb hash order st).R
      = (order.map (fun i =>
          rho hash st.Message (computeB pb st) i * (st.Parties i).Ei
            + (st.Parties i).Di)).sum := by
  show (rhoLoop hash st.Message (computeB pb st) order st.Parties 0).2 = _
  rw [rhoLoop_snd hash st.Message (computeB pb st) order hndo st.Parties 0, zero_add]
  apply congrArg List.sum
  apply List.map_congr_left
  intro j _
  simp [rhoStep]

theorem processRoundBody_C (pb : Point → List ℕ) (hash : List ℕ → List ℕ)
    (order : List ℕ) (st : Round1) :
    (processRoundBody pb hash order st).C
      = ComputeChallenge pb hash st.Message st.Y (processRoundBody pb hash order st).R := rfl

theorem processRoundBody_Zi (pb : Point → List ℕ) (hash : List ℕ → List ℕ)
    (order : List ℕ) (st : Round1) (hndo : order.Nodup)
    (hselfo : st.PartySelf ∈ order) :
    ((processRoundBody pb hash order st).Parties st.PartySelf).Zi
      = (st.e * rho hash st.Message (computeB pb st) st.PartySelf
          + (st.Parties st.PartySelf).Lagrange * st.Secret
            * (processRoundBody pb hash order st).C) + st.d := by
  have hself := rhoLoop_fst_mem hash st.Message (computeB pb st) order hndo st.Parties 0
    st.PartySelf hselfo
  rw [processRoundBody_C]
  simp only [processRoundBody, Function.update_same]
  rw [hself]
  simp [rhoStep]

end sign

end Frost

namespace Frost

/-- Claim C1: in signing round 1 `ProcessRound`, for every party `i` in the
signer set the implementation computes
`ρᵢ = SetUniformBytes(SHA-512("FROST-SHA512" ‖ IDᵢ as 4-byte BE ‖ M ‖ B))`
where `B` concatenates `(IDᵢ ‖ Dᵢ ‖ Eᵢ)` over the signer set in
`AllParties` order, sets `Rᵢ = Dᵢ + [ρᵢ]Eᵢ`, aggregates `R = Σᵢ Rᵢ`, and
sets `z_self = d + ρ_self·e + λ_self·s_self·c` with `c` the challenge
computed from `(R, Y, M)` — whatever iteration order the party map
produces. -/
theorem sign_round1_process_round (pb : Point → List ℕ) (hash : List ℕ → List ℕ)
    (order : List ℕ) (st : sign.Round1)
    (hready : st.roundProcessed = false)
    (hperm : order.Perm st.AllParties)
    (hnd : st.AllParties.Nodup)
    (hself : st.PartySelf ∈ st.AllParties) :
    ∃ st', sign.ProcessRound pb hash order st = some st'
      ∧ (∀ i ∈ st.AllParties, (st'.Parties i).Pi
          = sign.rho hash st.Message (sign.computeB pb st) i)
      ∧ (∀ i ∈ st.AllParties, (st'.Parties i).Ri
          = (st.Parties i).Di
            + sign.rho hash st.Message (sign.computeB pb st) i * (st.Parties i).Ei)
      ∧ st'.R = (st.AllParties.map (fun i =>
          (st.Parties i).Di
            + sign.rho hash st.Message (sign.computeB pb st) i * (st.Parties i).Ei)).sum
      ∧ st'.C = sign.ComputeChallenge pb hash st.Message st.Y st'.R
      ∧ (st'.Parties st.PartySelf).Zi
          = st.d + sign.rho hash st.Message (sign.computeB pb st) st.PartySelf * st.e
            + (st.Parties st.PartySelf).Lagrange * st.Secret * st'.C := by
  have hndo : order.Nodup := hperm.nodup_iff.mpr hnd
  refine ⟨_, sign.ProcessRound_eq_some pb hash order st hready, ?_, ?_, ?_,
    sign.processRoundBody_C pb hash order st, ?_⟩
  · intro i hi
    exact sign.processRoundBody_Parties_Pi pb hash order st hndo i (hperm.mem_iff.mpr hi)
  · intro i hi
    rw [sign.processRoundBody_Parties_Ri pb hash order st hndo i (hperm.mem_iff.mpr hi)]
    ring
  · rw [sign.processRoundBody_R pb hash order st hndo, List.Perm.sum_eq (hperm.map _)]
    apply congrArg List.sum
    apply List.map_congr_left
    intro j _
    ring
  · rw [sign.processRoundBody_Zi pb hash order st hndo (hperm.mem_iff.mpr hself)]
    ring

/-- Claim C4: transcript determinism.  Two runs of signing round 1
`ProcessRound` on states that agree on the signer set, the message, the
group key and every party's nonce points, with arbitrary (possibly
different) map iteration orders, compute the same byte string `B`, the same
`ρᵢ` for every `i`, the same aggregate `R` and the same challenge `c`. -/
theorem sign_round1_transcript_deterministic (pb : Point → List ℕ)
    (hash : List ℕ → List ℕ) (order1 order2 : List ℕ) (st1 st2 : sign.Round1)
    (hAP : st1.AllParties = st2.AllParties)
    (hM : st1.Message = st2.Message)
    (hY : st1.Y = st2.Y)
    (hDE : ∀ i ∈ st1.AllParties,
      (st1.Parties i).Di = (st2.Parties i).Di ∧ (st1.Parties i).Ei = (st2.Parties i).Ei)
    (h1 : st1.roundProcessed = false) (h2 : st2.roundProcessed = false)
    (hperm1 : order1.Perm st1.AllParties) (hperm2 : order2.Perm st2.AllParties)
    (hnd : st1.AllParties.Nodup) :
    sign.computeB pb st1 = sign.computeB pb st2
    ∧ (∀ i, sign.rho hash st1.Message (sign.computeB pb st1) i
        = sign.rho hash st2.Message (sign.computeB pb st2) i)
    ∧ ∃ st1' st2', sign.ProcessRound pb hash order1 st1 = some st1'
        ∧ sign.ProcessRound pb hash order2 st2 = some st2'
        ∧ st1'.R = st2'.R ∧ st1'.C = st2'.C
        ∧ (∀ i ∈ st1.AllParties, (st1'.Parties i).Pi = (st2'.Parties i).Pi) := by
  have hndo1 : order1.Nodup := hperm1.nodup_iff.mpr hnd
  have hnd2 : st2.AllParties.Nodup := hAP ▸ hnd
  have hndo2 : order2.Nodup := hperm2.nodup_iff.mpr hnd2
  have hB : sign.computeB pb st1 = sign.computeB pb st2 := by
    rw [sign.computeB, sign.computeB, ← hAP]
    apply congrArg
    apply List.map_congr_left
    intro j hj
    rw [(hDE j hj).1, (hDE j hj).2]
  have hrho : ∀ i, sign.rho hash st1.Message (sign.computeB pb st1) i
      = sign.rho hash st2.Message (sign.computeB pb st2) i := by
    intro i
    rw [hM, hB]
  have hR : (sign.processRoundBody pb hash order1 st1).R
      = (sign.processRoundBody pb hash order2 st2).R := by
    rw [sign.processRoundBody_R pb hash order1 st1 hndo1,
      sign.processRoundBody_R pb hash order2 st2 hndo2,
      List.Perm.sum_eq (hperm1.map _), List.Perm.sum_eq (hperm2.map _), ← hAP]
    apply congrArg List.sum
    apply List.map_congr_left
    intro j hj
    rw [hrho j, (hDE j hj).1, (hDE j hj).2]
  have hC : (sign.processRoundBody pb hash order1 st1).C
      = (sign.processRoundBody pb hash order2 st2).C := by
    rw [sign.processRoundBody_C pb hash order1 st1,
      sign.processRoundBody_C pb hash order2 st2, hM, hY, hR]
  have hPi : ∀ i ∈ st1.AllParties,
      ((sign.processRoundBody pb hash order1 st1).Parties i).Pi
        = ((sign.processRoundBody pb hash order2 st2).Parties i).Pi := by
    intro i hi
    rw [sign.processRoundBody_Parties_Pi pb hash order1 st1 hndo1 i (hperm1.mem_iff.mpr hi),
      sign.processRoundBody_Parties_Pi pb hash order2 st2 hndo2 i
        (hperm2.mem_iff.mpr (hAP ▸ hi))]
    exact hrho i
  exact ⟨hB, hrho, _, _, sign.ProcessRound_eq_some pb hash order1 st1 h1,
    sign.ProcessRound_eq_some pb hash order2 st2 h2, hR, hC, hPi⟩

/-- Concrete stand-in for the compressed point encoding in the witnesses. -/
def pbW : Point → List ℕ := fun _ => [1]

/-- Concrete stand-in for SHA-512 in the witnesses. -/
def hashW : List ℕ → List ℕ := fun bs => [bs.length % 256]

/-- Concrete per-party signing state for the witnesses. -/
def signerW : sign.Signer :=
  { Di := 1, Ei := 2, Pi := 0, Ri := 0, Zi := 0, Lagrange := 1 }

/-- Concrete signing round-1 state for the witnesses: parties `{1, 2}`,
self `1`, nonces `d = 5`, `e = 7`. -/
def signStW : sign.Round1 :=
  { AllParties := [1, 2], PartySelf := 1, Parties := fun _ => signerW
  , Message := [9], Y := 3, Secret := 4, d := 5, e := 7, R := 0, C := 0
  , roundProcessed := false, messagesProcessed := true }

/-- Concrete second state for the C4 witness: the other party's view — self
`2`, different nonce scalars and secret, same set, message, group key and
nonce points. -/
def signStW2 : sign.Round1 :=
  { signStW with PartySelf := 2, Secret := 9, d := 11, e := 13 }

/-- Witness for C1: `ProcessRound` evaluated on the concrete state
`signStW` with the map iterated in the order `[2, 1]`. -/
theorem sign_round1_process_round_witness :
    ∃ st', sign.ProcessRound pbW hashW [2, 1] signStW = some st'
      ∧ (∀ i ∈ signStW.AllParties, (st'.Parties i).Pi
          = sign.rho hashW signStW.Message (sign.computeB pbW signStW) i)
      ∧ (∀ i ∈ signStW.AllParties, (st'.Parties i).Ri
          = (signStW.Parties i).Di
            + sign.rho hashW signStW.Message (sign.computeB pbW signStW) i
              * (signStW.Parties i).Ei)
      ∧ st'.R = (signStW.AllParties.map (fun i =>
          (signStW.Parties i).Di
            + sign.rho hashW signStW.Message (sign.computeB pbW signStW) i
              * (signStW.Parties i).Ei)).sum
      ∧ st'.C = sign.ComputeChallenge pbW hashW signStW.Message signStW.Y st'.R
      ∧ (st'.Parties signStW.PartySelf).Zi
          = signStW.d
            + sign.rho hashW signStW.Message (sign.computeB pbW signStW) signStW.PartySelf
              * signStW.e
            + (signStW.Parties signStW.PartySelf).Lagrange * signStW.Secret * st'.C :=
  sign_round1_process_round pbW hashW [2, 1] signStW rfl (by decide) (by decide) (by decide)

/-- Witness for C4: the two views `signStW` (self 1) and `signStW2`
(self 2), iterated in opposite map orders, agree on `B`, every `ρᵢ`, `R`
and `c`. -/
theorem sign_round1_transcript_deterministic_witness :
    sign.computeB pbW signStW = sign.computeB pbW signStW2
    ∧ (∀ i, sign.rho hashW signStW.Message (sign.computeB pbW signStW) i
        = sign.rho hashW signStW2.Message (sign.computeB pbW signStW2) i)
    ∧ ∃ st1' st2', sign.ProcessRound pbW hashW [1, 2] signStW = some st1'
        ∧ sign.ProcessRound pbW hashW [2, 1] signStW2 = some st2'
        ∧ st1'.R = st2'.R ∧ st1'.C = st2'.C
        ∧ (∀ i ∈ signStW.AllParties, (st1'.Parties i).Pi = (st2'.Parties i).Pi) :=
  sign_round1_transcript_deterministic pbW hashW [1, 2] [2, 1] signStW signStW2
    rfl rfl rfl (by decide) rfl rfl (by decide) (by decide) (by decide)

/-- Claim C7, refuted by the code (`round1.CanProcess`,
`pkg/frost/sign/round1.go:18-37`): with signer set `{1, 2}`, self `1`, the
round not yet processed and no `Sign1` message stored at all, `CanProcess`
returns `true` — the completeness loop only runs when the stored-message
count is exactly `n − 1`, and any other count falls through to
`return true`, so a state with peer 2's message missing is reported
ready. -/
theorem sign_round1_canProcess_vacuous_true :
    sign.CanProcess false [1, 2] [1, 2] [] 1 = true
    ∧ (2 : ℕ) ∉ ([] : List ℕ) := by
  exact ⟨rfl, by decide⟩

/-- Claim C9, refuted by the code (part_000 lines 39-114): after a
successful `ProcessRound` the nonce scalars `d` and `e` are NOT erased —
the returned state carries them unchanged (here `d = 5 ≠ 0`,
`e = 7 ≠ 0`). -/
theorem sign_round1_nonces_survive :
    ((sign.ProcessRound pbW hashW [1, 2] signStW).map (fun st' => (st'.d, st'.e)))
      = some (signStW.d, signStW.e)
    ∧ signStW.d ≠ 0 ∧ signStW.e ≠ 0 := by
  refine ⟨rfl, by decide, by decide⟩

end Frost
